import Mathlib

/-!
Verification of the csv2json core (src/main.rs) against its specification.

The program reads lines of CSV text, splits each line on the comma character,
binds the first line's tokens to column indices, and accumulates the remaining
lines into one of two shapes: a map from column name to list of values
(`MapOfLists`) or a list of per-row maps (`ListOfMaps`).  Anomalous lines
(token count different from the header's column count) either abort the run
(strict mode) or are tolerated with a diagnostic warning.

Modelling conventions:
* Rust `&str` / `String` text from the input is modelled as `List Char`
  (`Str` below); error messages built with `format!` are Lean `String`s.
* `HashMap<K, V>` is modelled as an association list with pairwise distinct
  keys: `insert` overwrites in place, `get` is linear lookup, `len` is the
  number of entries.  Hash-order is unobservable in the source (only `get`,
  `insert` and `len` are used), so the association list is a faithful model
  of the map's contents.
* `Vec::with_capacity` takes only a size hint; capacity has no observable
  effect on contents, so the hint is dropped where a vector is created and
  `get_initial_vec_capacity` is modelled separately as a pure function of the
  optional environment value.
* `eprintln!` diagnostics go to a side channel distinct from the primary
  output; for `get_initial_vec_capacity` the returned `Bool` records whether
  the fallback warning was emitted.
* File/stdin/stdout plumbing and the JSON serializer (`serde_json`) are
  external collaborators, out of core scope; `process_input` is modelled up
  to the finished in-memory structure, and a run that returns `.error` never
  reaches the serializer, producing no output.
-/

set_option maxHeartbeats 1000000

namespace Csv2Json

/-- Input text (one token, one line, or one column name), modelled as the
list of its characters. -/
abbrev Str := List Char

/-- `line.split(',')` from `process_input` (src/main.rs line 94): split a line
on the fixed comma delimiter.  An empty line yields a single empty token. -/
def splitOnComma : Str → List Str
  | [] => [[]]
  | c :: rest =>
    match splitOnComma rest with
    | [] => [[]]
    | t :: ts => if c = ',' then [] :: t :: ts else (c :: t) :: ts

/-- `token.replace("\n", "")` (src/main.rs lines 135, 156, 194): remove every
newline character from a token.  Applied per token, after splitting. -/
def stripNL : Str → Str
  | [] => []
  | c :: cs => if c = '\n' then stripNL cs else c :: stripNL cs

/-- Model of `HashMap<usize, String>` (the header map): association list with
pairwise distinct keys. -/
abbrev NatMap := List (Nat × Str)

/-- `HashMap::get(&i)` on the header map. -/
def nmGet : NatMap → Nat → Option Str
  | [], _ => none
  | (k, v) :: rest, i => if k = i then some v else nmGet rest i

/-- `HashMap::insert(i, v)` on the header map: overwrite in place if the key
is present, otherwise add the new entry. -/
def nmInsert : NatMap → Nat → Str → NatMap
  | [], k, v => [(k, v)]
  | (k', v') :: rest, k, v =>
    if k' = k then (k, v) :: rest else (k', v') :: nmInsert rest k v

/-- The loop of `process_headers`: `for token in tokens { map.insert(i,
token.replace("\n", "")); i += 1; }`. -/
def process_headers_go : Nat → NatMap → List Str → NatMap
  | _, m, [] => m
  | i, m, token :: rest => process_headers_go (i + 1) (nmInsert m i (stripNL token)) rest

/-- `process_headers` (src/main.rs lines 131-140): bind zero-based column
indices to the cleaned tokens of the header line. -/
def process_headers (tokens : List Str) : NatMap :=
  process_headers_go 0 [] tokens

/-- Model of `HashMap<String, Vec<String>>` (the map-of-lists result). -/
abbrev MolMap := List (Str × List Str)

/-- `HashMap::get(column_name)` on the map-of-lists result. -/
def smGet : MolMap → Str → Option (List Str)
  | [], _ => none
  | (k, v) :: rest, name => if k = name then some v else smGet rest name

/-- `HashMap::insert(column_name, vec)` on the map-of-lists result. -/
def smInsert : MolMap → Str → List Str → MolMap
  | [], name, vs => [(name, vs)]
  | (k, v) :: rest, name, vs =>
    if k = name then (name, vs) :: rest else (k, v) :: smInsert rest name vs

/-- `map_of_lists.get_mut(column_name).unwrap().push(v)`: append a value to
the list stored under an existing key (no effect on an absent key; the source
only calls this right after ensuring the key is present). -/
def smPush : MolMap → Str → Str → MolMap
  | [], _, _ => []
  | (k, vs) :: rest, name, v =>
    if k = name then (k, vs ++ [v]) :: rest else (k, vs) :: smPush rest name v

/-- src/main.rs lines 150-156: on first reference to a column, insert an
empty list (`Vec::with_capacity(get_initial_vec_capacity())`; the capacity is
only a size hint with no observable content), then push the cleaned token. -/
def molVisit (m : MolMap) (name : Str) (v : Str) : MolMap :=
  let m' := if (smGet m name).isNone then smInsert m name [] else m
  smPush m' name v

/-- The overflow anomaly message, src/main.rs lines 159 and 197:
`format!("Found item outside of expected bounds; index: {}", i)`. -/
def overflowMsg (i : Nat) : String :=
  "Found item outside of expected bounds; index: " ++ Nat.repr i

/-- The underflow anomaly message, src/main.rs lines 172 and 209:
`format!("Line too short; length: {}; expected: {}", headers.len(), i)`. -/
def underflowMsg (hlen i : Nat) : String :=
  "Line too short; length: " ++ Nat.repr hlen ++ "; expected: " ++ Nat.repr i

/-- The token loop of `process_line_for_map_of_lists` (src/main.rs lines
148-169), with the mutable map threaded explicitly.  Returns the map, the
final value of `i`, and the error message if the loop bailed.  In tolerant
mode an out-of-bounds token only prints a warning and the loop continues. -/
def molLoop (headers : NatMap) (allow_anomalies : Bool) :
    List Str → Nat → MolMap → MolMap × Nat × Option String
  | [], i, m => (m, i, none)
  | token :: rest, i, m =>
    match nmGet headers i with
    | some column_name =>
      molLoop headers allow_anomalies rest (i + 1) (molVisit m column_name (stripNL token))
    | none =>
      if allow_anomalies then molLoop headers allow_anomalies rest (i + 1) m
      else (m, i, some (overflowMsg i))

/-- `process_line_for_map_of_lists` (src/main.rs lines 142-182).  The first
component is the final state of the `&mut` map; the second is the bail
message, if any. -/
def process_line_for_map_of_lists (tokens : List Str) (headers : NatMap)
    (map_of_lists : MolMap) (allow_anomalies : Bool) : MolMap × Option String :=
  match molLoop headers allow_anomalies tokens 0 map_of_lists with
  | (m, _, some e) => (m, some e)
  | (m, i, none) =>
    if i < headers.length then
      if allow_anomalies then (m, none) else (m, some (underflowMsg headers.length i))
    else (m, none)

/-- Model of one `HashMap<String, String>` row record. -/
abbrev RowMap := List (Str × Str)

/-- `HashMap::get` on a row record. -/
def rmGet : RowMap → Str → Option Str
  | [], _ => none
  | (k, v) :: rest, name => if k = name then some v else rmGet rest name

/-- `HashMap::insert` on a row record: overwrite in place if present. -/
def rmInsert : RowMap → Str → Str → RowMap
  | [], name, v => [(name, v)]
  | (k, v') :: rest, name, v =>
    if k = name then (name, v) :: rest else (k, v') :: rmInsert rest name v

/-- The token loop of `process_line_for_list_of_maps` (src/main.rs lines
190-206), building the local row record. -/
def lomLoop (headers : NatMap) (allow_anomalies : Bool) :
    List Str → Nat → RowMap → RowMap × Nat × Option String
  | [], i, map => (map, i, none)
  | token :: rest, i, map =>
    match nmGet headers i with
    | some column_name =>
      lomLoop headers allow_anomalies rest (i + 1) (rmInsert map column_name (stripNL token))
    | none =>
      if allow_anomalies then lomLoop headers allow_anomalies rest (i + 1) map
      else (map, i, some (overflowMsg i))

/-- `process_line_for_list_of_maps` (src/main.rs lines 184-221).  The local
row record is built first; `list_of_maps.push(map)` runs only after both
anomaly checks pass (or are tolerated).  The first component is the final
state of the `&mut` vector; the second is the bail message, if any. -/
def process_line_for_list_of_maps (tokens : List Str) (headers : NatMap)
    (list_of_maps : List RowMap) (allow_anomalies : Bool) :
    List RowMap × Option String :=
  match lomLoop headers allow_anomalies tokens 0 [] with
  | (_, _, some e) => (list_of_maps, some e)
  | (map, i, none) =>
    if i < headers.length then
      if allow_anomalies then (list_of_maps ++ [map], none)
      else (list_of_maps, some (underflowMsg headers.length i))
    else (list_of_maps ++ [map], none)

/-- `enum CsvResult` (src/main.rs lines 17-21). -/
inductive CsvResult where
  | MapOfLists : MolMap → CsvResult
  | ListOfMaps : List RowMap → CsvResult
deriving DecidableEq

/-- The `while let Some(line) = read_line(..)` loop of `process_input`
(src/main.rs lines 93-108): the first line binds the headers, every later
line feeds the accumulator matching the chosen shape, and a line-processor
error aborts the run (the `?` operator). -/
def process_input_go (allow_anomalies : Bool) :
    List Str → Option NatMap → CsvResult → Except String CsvResult
  | [], _, result => .ok result
  | line :: rest, none, result =>
    process_input_go allow_anomalies rest
      (some (process_headers (splitOnComma line))) result
  | line :: rest, some header_map, result =>
    match result with
    | .MapOfLists map_of_lists =>
      match process_line_for_map_of_lists (splitOnComma line) header_map
          map_of_lists allow_anomalies with
      | (m, none) => process_input_go allow_anomalies rest (some header_map) (.MapOfLists m)
      | (_, some e) => .error e
    | .ListOfMaps list_of_maps =>
      match process_line_for_list_of_maps (splitOnComma line) header_map
          list_of_maps allow_anomalies with
      | (l, none) => process_input_go allow_anomalies rest (some header_map) (.ListOfMaps l)
      | (_, some e) => .error e

/-- `process_input` (src/main.rs lines 85-111) up to the finished in-memory
structure; the JSON serialization (`to_json_str`) is an external collaborator
and is only reached when the result is `.ok`, so an `.error` run produces no
output. -/
def process_input (lines : List Str) (result : CsvResult)
    (allow_anomalies : Bool) : Except String CsvResult :=
  process_input_go allow_anomalies lines none result

/-- src/main.rs line 10. -/
def FORMAT_NAME_LIST_OF_MAPS : String := "list-of-maps"

/-- src/main.rs line 11. -/
def FORMAT_NAME_LIST_OF_MAPS_SHORTENED : String := "lom"

/-- src/main.rs line 12. -/
def FORMAT_NAME_MAP_OF_LISTS : String := "map-of-lists"

/-- src/main.rs line 13. -/
def FORMAT_NAME_MAP_OF_LISTS_SHORTENED : String := "mol"

/-- `HashMap::get` on the format-string map. -/
def strLookup : List (String × CsvResult) → String → Option CsvResult
  | [], _ => none
  | (k, v) :: rest, s => if k = s then some v else strLookup rest s

/-- `CsvResult::_get_str_map` (src/main.rs lines 34-45).  The slices
`&FORMAT_NAME_LIST_OF_MAPS[0..1]` and `&FORMAT_NAME_MAP_OF_LISTS[0..1]` are
the single-letter shorthands `"l"` and `"m"`. -/
def get_str_map : List (String × CsvResult) :=
  [(FORMAT_NAME_LIST_OF_MAPS, .ListOfMaps []),
   (FORMAT_NAME_LIST_OF_MAPS_SHORTENED, .ListOfMaps []),
   ("l", .ListOfMaps []),
   (FORMAT_NAME_MAP_OF_LISTS, .MapOfLists []),
   (FORMAT_NAME_MAP_OF_LISTS_SHORTENED, .MapOfLists []),
   ("m", .MapOfLists [])]

/-- `CsvResult::from_format_str` (src/main.rs lines 24-32). -/
def from_format_str (s : String) : Except String CsvResult :=
  match strLookup get_str_map s with
  | some format => .ok format
  | none => .error ("Unknown format string: " ++ s)

/-- `usize::MAX` on the 64-bit targets the program is built for. -/
def USIZE_MAX : Nat := 2 ^ 64 - 1

/-- Model of Rust `str::parse::<usize>()`: an optional leading `'+'`, then at
least one ASCII digit, with the value within the `usize` range; anything else
(empty string, other characters, out-of-range value) fails. -/
def parse_usize (s : String) : Option Nat :=
  let cs := match s.data with
    | '+' :: rest => rest
    | cs => cs
  if cs = [] then none
  else if cs.all Char.isDigit then
    let n := cs.foldl (fun acc c => acc * 10 + (c.toNat - '0'.toNat)) 0
    if n ≤ USIZE_MAX then some n else none
  else none

/-- `get_initial_vec_capacity` (src/main.rs lines 272-285), as a function of
the optional `CSV2JSON_INITIAL_VECTOR_CAPACITY` environment value.  The
`Bool` component records whether the could-not-parse warning was printed to
stderr. -/
def get_initial_vec_capacity (envValue : Option String) : Nat × Bool :=
  match envValue with
  | some val =>
    (match parse_usize val with
     | some result => (result, false)
     | none => (1024, true))
  | none => (1024, false)

/-!
Derived reformulations, proved equivalent to the embedded code below and used
to state and prove the claims.  Because the header map built by
`process_headers` binds key `i` to the cleaned `i`-th header token, the token
loops can be re-expressed as a simultaneous walk over the cleaned header-name
list and the token list.
-/

/-- The effect of one tolerated line on the map-of-lists state: walk names
and tokens together, pushing each cleaned token onto its column's list;
tokens beyond the names (overflow) and names beyond the tokens (underflow)
contribute nothing. -/
def molLineGo : List Str → List Str → MolMap → MolMap
  | _, [], m => m
  | [], _ :: _, m => m
  | name :: names, token :: rest, m =>
    molLineGo names rest (molVisit m name (stripNL token))

/-- The row record built from one line: walk names and tokens together,
inserting each cleaned token under its column name (later duplicate names
overwrite earlier ones). -/
def rowLineGo : List Str → List Str → RowMap → RowMap
  | _, [], r => r
  | [], _ :: _, r => r
  | name :: names, token :: rest, r =>
    rowLineGo names rest (rmInsert r name (stripNL token))

/-- A whole tolerant map-of-lists run over the data lines. -/
def molRunGo (names : List Str) : List Str → MolMap → MolMap
  | [], m => m
  | line :: rest, m => molRunGo names rest (molLineGo names (splitOnComma line) m)

/-- A whole tolerant list-of-maps run over the data lines. -/
def lomRunGo (names : List Str) : List Str → List RowMap → List RowMap
  | [], acc => acc
  | line :: rest, acc =>
    lomRunGo names rest (acc ++ [rowLineGo names (splitOnComma line) []])

/-- The cleaned tokens supplied for column index `i`, one per data line that
has a token at that index, in line order. -/
def colVals (i : Nat) : List Str → List Str
  | [] => []
  | line :: rest =>
    match (splitOnComma line)[i]? with
    | some t => stripNL t :: colVals i rest
    | none => colVals i rest

/-- Extend a lazily created column list: appending nothing leaves an absent
column absent; appending at least one value materialises the list. -/
def extendCol (o : Option (List Str)) : List Str → Option (List Str)
  | [] => o
  | vs => some (o.getD [] ++ vs)

/-- The cleaned tokens a single line contributes to the column named `name`,
across all (possibly duplicate) header positions bearing that name, in
position order. -/
def dupVals (name : Str) : List Str → List Str → List Str
  | _, [] => []
  | [], _ :: _ => []
  | k :: ks, t :: ts =>
    if k = name then stripNL t :: dupVals name ks ts else dupVals name ks ts

/-- The cleaned token written last into a row record under `name`: the token
of the highest header position bearing that name that also received a token
on this line. -/
def lastWrite (name : Str) : List Str → List Str → Option Str
  | _, [] => none
  | [], _ :: _ => none
  | k :: ks, t :: ts =>
    match lastWrite name ks ts with
    | some v => some v
    | none => if k = name then some (stripNL t) else none

/-- Rejoin tokens with the comma delimiter (inverse of `splitOnComma`). -/
def joinComma : List Str → Str
  | [] => []
  | [t] => t
  | t :: ts => t ++ ',' :: joinComma ts

/-! ### Association-map lookup lemmas -/

theorem nmGet_nmInsert_self (m : NatMap) (k : Nat) (v : Str) :
    nmGet (nmInsert m k v) k = some v := by
  induction m with
  | nil => simp [nmInsert, nmGet]
  | cons p rest ih =>
    obtain ⟨k', v'⟩ := p
    by_cases h : k' = k
    · simp [nmInsert, h, nmGet]
    · simp [nmInsert, h, nmGet, ih]

theorem nmGet_nmInsert_ne (m : NatMap) (k i : Nat) (v : Str) (h : k ≠ i) :
    nmGet (nmInsert m k v) i = nmGet m i := by
  induction m with
  | nil => simp [nmInsert, nmGet, h]
  | cons p rest ih =>
    obtain ⟨k', v'⟩ := p
    by_cases h' : k' = k
    · subst h'; simp [nmInsert, nmGet, h]
    · simp [nmInsert, h', nmGet, ih]

theorem nmGet_eq_none_of_keys_lt (m : NatMap) (j i : Nat)
    (hm : ∀ p ∈ m, p.1 < j) (h : j ≤ i) : nmGet m i = none := by
  induction m with
  | nil => simp [nmGet]
  | cons p rest ih =>
    obtain ⟨k, v⟩ := p
    have hk : k < j := hm (k, v) (by simp)
    have : k ≠ i := by omega
    simp only [nmGet, if_neg this]
    exact ih (fun q hq => hm q (by simp [hq]))

theorem nmInsert_length_fresh (m : NatMap) (k : Nat) (v : Str)
    (h : ∀ p ∈ m, p.1 ≠ k) : (nmInsert m k v).length = m.length + 1 := by
  induction m with
  | nil => simp [nmInsert]
  | cons p rest ih =>
    obtain ⟨k', v'⟩ := p
    have hk : k' ≠ k := h (k', v') (by simp)
    simp only [nmInsert, if_neg hk, List.length_cons]
    rw [ih (fun q hq => h q (by simp [hq]))]

theorem smGet_smInsert_self (m : MolMap) (k : Str) (v : List Str) :
    smGet (smInsert m k v) k = some v := by
  induction m with
  | nil => simp [smInsert, smGet]
  | cons p rest ih =>
    obtain ⟨k', v'⟩ := p
    by_cases h : k' = k
    · simp [smInsert, h, smGet]
    · simp [smInsert, h, smGet, ih]

theorem smGet_smInsert_ne (m : MolMap) (k k' : Str) (v : List Str) (h : k ≠ k') :
    smGet (smInsert m k v) k' = smGet m k' := by
  induction m with
  | nil => simp [smInsert, smGet, h]
  | cons p rest ih =>
    obtain ⟨k'', v'⟩ := p
    by_cases h' : k'' = k
    · subst h'; simp [smInsert, smGet, h]
    · simp [smInsert, h', smGet, ih]

theorem smGet_smPush_self (m : MolMap) (k : Str) (v : Str) :
    smGet (smPush m k v) k = (smGet m k).map (fun vs => vs ++ [v]) := by
  induction m with
  | nil => simp [smPush, smGet]
  | cons p rest ih =>
    obtain ⟨k', vs⟩ := p
    by_cases h : k' = k
    · simp [smPush, h, smGet]
    · simp [smPush, h, smGet, ih]

theorem smGet_smPush_ne (m : MolMap) (k k' : Str) (v : Str) (h : k ≠ k') :
    smGet (smPush m k v) k' = smGet m k' := by
  induction m with
  | nil => simp [smPush, smGet]
  | cons p rest ih =>
    obtain ⟨k'', vs⟩ := p
    by_cases h' : k'' = k
    · subst h'; simp [smPush, smGet, h]
    · simp [smPush, h', smGet, ih]

theorem molVisit_get_self (m : MolMap) (k : Str) (v : Str) :
    smGet (molVisit m k v) k = some ((smGet m k).getD [] ++ [v]) := by
  cases h : smGet m k with
  | none => simp [molVisit, h, smGet_smPush_self, smGet_smInsert_self]
  | some vs => simp [molVisit, h, smGet_smPush_self]

theorem molVisit_get_ne (m : MolMap) (k k' : Str) (v : Str) (h : k ≠ k') :
    smGet (molVisit m k v) k' = smGet m k' := by
  cases hk : smGet m k with
  | none =>
    simp [molVisit, hk, smGet_smPush_ne _ _ _ _ h, smGet_smInsert_ne _ _ _ _ h]
  | some vs => simp [molVisit, hk, smGet_smPush_ne _ _ _ _ h]

theorem rmGet_rmInsert_self (r : RowMap) (k : Str) (v : Str) :
    rmGet (rmInsert r k v) k = some v := by
  induction r with
  | nil => simp [rmInsert, rmGet]
  | cons p rest ih =>
    obtain ⟨k', v'⟩ := p
    by_cases h : k' = k
    · simp [rmInsert, h, rmGet]
    · simp [rmInsert, h, rmGet, ih]

theorem rmGet_rmInsert_ne (r : RowMap) (k k' : Str) (v : Str) (h : k ≠ k') :
    rmGet (rmInsert r k v) k' = rmGet r k' := by
  induction r with
  | nil => simp [rmInsert, rmGet, h]
  | cons p rest ih =>
    obtain ⟨k'', v'⟩ := p
    by_cases h' : k'' = k
    · subst h'; simp [rmInsert, rmGet, h]
    · simp [rmInsert, h', rmGet, ih]

/-! ### The header map binds key `i` to the cleaned `i`-th header token -/

theorem nmInsert_keys_lt (m : NatMap) (k : Nat) (v : Str) (j : Nat)
    (hm : ∀ p ∈ m, p.1 < j) (hk : k < j) :
    ∀ p ∈ nmInsert m k v, p.1 < j := by
  induction m with
  | nil =>
    intro p hp
    simp only [nmInsert, List.mem_singleton] at hp
    simp [hp, hk]
  | cons q rest ih =>
    obtain ⟨k', v'⟩ := q
    intro p hp
    by_cases hq : k' = k
    · rw [nmInsert, if_pos hq] at hp
      rcases List.mem_cons.1 hp with hp | hp
      · subst hp; simpa using hk
      · exact hm p (List.mem_cons_of_mem _ hp)
    · rw [nmInsert, if_neg hq] at hp
      rcases List.mem_cons.1 hp with hp | hp
      · subst hp; exact hm (k', v') (by simp)
      · exact ih (fun q hq2 => hm q (List.mem_cons_of_mem _ hq2)) p hp

theorem process_headers_go_get (tokens : List Str) :
    ∀ (j : Nat) (m : NatMap), (∀ p ∈ m, p.1 < j) → ∀ i,
      nmGet (process_headers_go j m tokens) i =
        if i < j then nmGet m i else (tokens.map stripNL).get? (i - j) := by
  induction tokens with
  | nil =>
    intro j m hm i
    by_cases h : i < j
    · simp [process_headers_go, h]
    · simp only [process_headers_go, if_neg h, List.map_nil, List.get?_nil]
      exact nmGet_eq_none_of_keys_lt m j i hm (by omega)
  | cons t ts ih =>
    intro j m hm i
    have hm' : ∀ p ∈ nmInsert m j (stripNL t), p.1 < j + 1 :=
      nmInsert_keys_lt m j (stripNL t) (j + 1)
        (fun p hp => by have := hm p hp; omega) (by omega)
    rw [process_headers_go, ih (j + 1) _ hm' i]
    by_cases h1 : i < j
    · rw [if_pos (by omega), if_pos h1, nmGet_nmInsert_ne _ _ _ _ (by omega)]
    · by_cases h2 : i = j
      · subst h2
        rw [if_pos (by omega), if_neg h1, nmGet_nmInsert_self]
        simp
      · rw [if_neg (by omega), if_neg h1]
        have : i - j = (i - (j + 1)) + 1 := by omega
        rw [this]
        simp

theorem process_headers_get (tokens : List Str) (i : Nat) :
    nmGet (process_headers tokens) i = (tokens.map stripNL).get? i := by
  rw [process_headers, process_headers_go_get tokens 0 [] (by simp) i]
  simp

theorem process_headers_go_length (tokens : List Str) :
    ∀ (j : Nat) (m : NatMap), (∀ p ∈ m, p.1 < j) →
      (process_headers_go j m tokens).length = m.length + tokens.length := by
  induction tokens with
  | nil => intro j m hm; simp [process_headers_go]
  | cons t ts ih =>
    intro j m hm
    have hfresh : ∀ p ∈ m, p.1 ≠ j := by
      intro p hp
      have := hm p hp
      omega
    have hm' : ∀ p ∈ nmInsert m j (stripNL t), p.1 < j + 1 :=
      nmInsert_keys_lt m j (stripNL t) (j + 1)
        (fun p hp => by have := hm p hp; omega) (by omega)
    rw [process_headers_go, ih (j + 1) _ hm',
      nmInsert_length_fresh m j (stripNL t) hfresh]
    simp [List.length_cons]
    omega

theorem process_headers_length (tokens : List Str) :
    (process_headers tokens).length = tokens.length := by
  rw [process_headers, process_headers_go_length tokens 0 [] (by simp)]
  simp

theorem getElem?_isSome_iff {α : Type _} (l : List α) (n : Nat) :
    l[n]?.isSome ↔ n < l.length := by
  constructor
  · intro h
    by_contra hc
    push_neg at hc
    rw [List.getElem?_eq_none hc] at h
    simp at h
  · intro h
    rw [List.getElem?_eq_getElem h]
    rfl

/-! ### Loop step lemmas -/

theorem molLineGo_nil (tokens : List Str) (m : MolMap) :
    molLineGo [] tokens m = m := by
  cases tokens <;> rfl

theorem rowLineGo_nil (tokens : List Str) (r : RowMap) :
    rowLineGo [] tokens r = r := by
  cases tokens <;> rfl

theorem molLoop_cons_some (headers : NatMap) (allow_anomalies : Bool)
    (t : Str) (ts : List Str) (i : Nat) (m : MolMap) (nm : Str)
    (h : nmGet headers i = some nm) :
    molLoop headers allow_anomalies (t :: ts) i m
      = molLoop headers allow_anomalies ts (i + 1) (molVisit m nm (stripNL t)) := by
  rw [molLoop, h]

theorem molLoop_cons_none_true (headers : NatMap) (t : Str) (ts : List Str)
    (i : Nat) (m : MolMap) (h : nmGet headers i = none) :
    molLoop headers true (t :: ts) i m = molLoop headers true ts (i + 1) m := by
  rw [molLoop, h]
  rfl

theorem molLoop_cons_none_false (headers : NatMap) (t : Str) (ts : List Str)
    (i : Nat) (m : MolMap) (h : nmGet headers i = none) :
    molLoop headers false (t :: ts) i m = (m, i, some (overflowMsg i)) := by
  rw [molLoop, h]
  rfl

theorem lomLoop_cons_some (headers : NatMap) (allow_anomalies : Bool)
    (t : Str) (ts : List Str) (i : Nat) (r : RowMap) (nm : Str)
    (h : nmGet headers i = some nm) :
    lomLoop headers allow_anomalies (t :: ts) i r
      = lomLoop headers allow_anomalies ts (i + 1) (rmInsert r nm (stripNL t)) := by
  rw [lomLoop, h]

theorem lomLoop_cons_none_true (headers : NatMap) (t : Str) (ts : List Str)
    (i : Nat) (r : RowMap) (h : nmGet headers i = none) :
    lomLoop headers true (t :: ts) i r = lomLoop headers true ts (i + 1) r := by
  rw [lomLoop, h]
  rfl

theorem lomLoop_cons_none_false (headers : NatMap) (t : Str) (ts : List Str)
    (i : Nat) (r : RowMap) (h : nmGet headers i = none) :
    lomLoop headers false (t :: ts) i r = (r, i, some (overflowMsg i)) := by
  rw [lomLoop, h]
  rfl

/-! ### Tolerant-mode loops walk the name list and the token list together -/

theorem molLoop_true_names :
    ∀ (tokens : List Str) (headers : NatMap) (j : Nat) (names : List Str) (m : MolMap),
      (∀ k, nmGet headers (j + k) = names[k]?) →
      molLoop headers true tokens j m = (molLineGo names tokens m, j + tokens.length, none) := by
  intro tokens
  induction tokens with
  | nil =>
    intro headers j names m _
    cases names <;> simp [molLoop, molLineGo]
  | cons t ts ih =>
    intro headers j names m hnm
    cases names with
    | nil =>
      have h0 : nmGet headers j = none := by simpa using hnm 0
      have hrec := ih headers (j + 1) [] m
        (fun k => by
          have h := hnm (k + 1)
          simp only [List.getElem?_nil] at h ⊢
          rw [show j + 1 + k = j + (k + 1) by omega]
          exact h)
      rw [molLoop_cons_none_true headers t ts j m h0, hrec,
        molLineGo_nil, molLineGo_nil]
      simp only [List.length_cons]
      rw [show j + 1 + ts.length = j + (ts.length + 1) by omega]
    | cons nm ns =>
      have h0 : nmGet headers j = some nm := by simpa using hnm 0
      have hrec := ih headers (j + 1) ns (molVisit m nm (stripNL t))
        (fun k => by
          have h := hnm (k + 1)
          rw [List.getElem?_cons_succ] at h
          rw [show j + 1 + k = j + (k + 1) by omega]
          exact h)
      rw [molLoop_cons_some headers true t ts j m nm h0, hrec, molLineGo]
      simp only [List.length_cons]
      rw [show j + 1 + ts.length = j + (ts.length + 1) by omega]

theorem lomLoop_true_names :
    ∀ (tokens : List Str) (headers : NatMap) (j : Nat) (names : List Str) (r : RowMap),
      (∀ k, nmGet headers (j + k) = names[k]?) →
      lomLoop headers true tokens j r = (rowLineGo names tokens r, j + tokens.length, none) := by
  intro tokens
  induction tokens with
  | nil =>
    intro headers j names r _
    cases names <;> simp [lomLoop, rowLineGo]
  | cons t ts ih =>
    intro headers j names r hnm
    cases names with
    | nil =>
      have h0 : nmGet headers j = none := by simpa using hnm 0
      have hrec := ih headers (j + 1) [] r
        (fun k => by
          have h := hnm (k + 1)
          simp only [List.getElem?_nil] at h ⊢
          rw [show j + 1 + k = j + (k + 1) by omega]
          exact h)
      rw [lomLoop_cons_none_true headers t ts j r h0, hrec,
        rowLineGo_nil, rowLineGo_nil]
      simp only [List.length_cons]
      rw [show j + 1 + ts.length = j + (ts.length + 1) by omega]
    | cons nm ns =>
      have h0 : nmGet headers j = some nm := by simpa using hnm 0
      have hrec := ih headers (j + 1) ns (rmInsert r nm (stripNL t))
        (fun k => by
          have h := hnm (k + 1)
          rw [List.getElem?_cons_succ] at h
          rw [show j + 1 + k = j + (k + 1) by omega]
          exact h)
      rw [lomLoop_cons_some headers true t ts j r nm h0, hrec, rowLineGo]
      simp only [List.length_cons]
      rw [show j + 1 + ts.length = j + (ts.length + 1) by omega]

theorem headers_names_shift (hts : List Str) :
    ∀ k, nmGet (process_headers hts) (0 + k) = (hts.map stripNL)[k]? := by
  intro k
  rw [Nat.zero_add, process_headers_get, List.get?_eq_getElem?]

/-- In tolerant mode, one map-of-lists line is exactly a simultaneous walk of
the cleaned header names and the line's tokens, and never fails. -/
theorem process_mol_true (hts tokens : List Str) (m : MolMap) :
    process_line_for_map_of_lists tokens (process_headers hts) m true
      = (molLineGo (hts.map stripNL) tokens m, none) := by
  rw [process_line_for_map_of_lists,
    molLoop_true_names tokens (process_headers hts) 0 (hts.map stripNL) m
      (headers_names_shift hts)]
  by_cases h : 0 + tokens.length < (process_headers hts).length <;> simp [h]

/-- In tolerant mode, one list-of-maps line appends exactly the walked row
record and never fails. -/
theorem process_lom_true (hts tokens : List Str) (lom : List RowMap) :
    process_line_for_list_of_maps tokens (process_headers hts) lom true
      = (lom ++ [rowLineGo (hts.map stripNL) tokens []], none) := by
  rw [process_line_for_list_of_maps,
    lomLoop_true_names tokens (process_headers hts) 0 (hts.map stripNL) []
      (headers_names_shift hts)]
  by_cases h : 0 + tokens.length < (process_headers hts).length <;> simp [h]

/-- The tolerant list-of-maps line processor appends exactly one row record,
whatever the header map is. -/
theorem lomLoop_true_no_err :
    ∀ (tokens : List Str) (headers : NatMap) (j : Nat) (r : RowMap),
      ∃ r', lomLoop headers true tokens j r = (r', j + tokens.length, none) := by
  intro tokens
  induction tokens with
  | nil => intro headers j r; exact ⟨r, by simp [lomLoop]⟩
  | cons t ts ih =>
    intro headers j r
    cases h : nmGet headers j with
    | some nm =>
      obtain ⟨r', hr'⟩ := ih headers (j + 1) (rmInsert r nm (stripNL t))
      refine ⟨r', ?_⟩
      rw [lomLoop_cons_some headers true t ts j r nm h, hr']
      simp only [List.length_cons]
      rw [show j + 1 + ts.length = j + (ts.length + 1) by omega]
    | none =>
      obtain ⟨r', hr'⟩ := ih headers (j + 1) r
      refine ⟨r', ?_⟩
      rw [lomLoop_cons_none_true headers t ts j r h, hr']
      simp only [List.length_cons]
      rw [show j + 1 + ts.length = j + (ts.length + 1) by omega]

theorem process_lom_true_append (tokens : List Str) (headers : NatMap)
    (lom : List RowMap) :
    ∃ row, process_line_for_list_of_maps tokens headers lom true
      = (lom ++ [row], none) := by
  obtain ⟨r', hr'⟩ := lomLoop_true_no_err tokens headers 0 []
  refine ⟨r', ?_⟩
  rw [process_line_for_list_of_maps, hr']
  by_cases h : 0 + tokens.length < headers.length <;> simp [h]

/-! ### Strict-mode loop behavior -/

theorem molLoop_no_overflow :
    ∀ (tokens : List Str) (headers : NatMap) (j : Nat) (m : MolMap),
      (∀ k, k < tokens.length → (nmGet headers (j + k)).isSome) →
      ∃ m', molLoop headers false tokens j m = (m', j + tokens.length, none) := by
  intro tokens
  induction tokens with
  | nil => intro headers j m _; exact ⟨m, by simp [molLoop]⟩
  | cons t ts ih =>
    intro headers j m hk
    have h0 : (nmGet headers j).isSome := by
      have := hk 0 (by simp)
      simpa using this
    cases h : nmGet headers j with
    | none => rw [h] at h0; simp at h0
    | some nm =>
      obtain ⟨m', hm'⟩ := ih headers (j + 1) (molVisit m nm (stripNL t))
        (fun k hlt => by
          have hs := hk (k + 1) (by simpa using Nat.succ_lt_succ hlt)
          rw [show j + 1 + k = j + (k + 1) by omega]
          exact hs)
      refine ⟨m', ?_⟩
      rw [molLoop_cons_some headers false t ts j m nm h, hm']
      simp only [List.length_cons]
      rw [show j + 1 + ts.length = j + (ts.length + 1) by omega]

theorem lomLoop_no_overflow :
    ∀ (tokens : List Str) (headers : NatMap) (j : Nat) (r : RowMap),
      (∀ k, k < tokens.length → (nmGet headers (j + k)).isSome) →
      ∃ r', lomLoop headers false tokens j r = (r', j + tokens.length, none) := by
  intro tokens
  induction tokens with
  | nil => intro headers j r _; exact ⟨r, by simp [lomLoop]⟩
  | cons t ts ih =>
    intro headers j r hk
    have h0 : (nmGet headers j).isSome := by
      have := hk 0 (by simp)
      simpa using this
    cases h : nmGet headers j with
    | none => rw [h] at h0; simp at h0
    | some nm =>
      obtain ⟨r', hr'⟩ := ih headers (j + 1) (rmInsert r nm (stripNL t))
        (fun k hlt => by
          have hs := hk (k + 1) (by simpa using Nat.succ_lt_succ hlt)
          rw [show j + 1 + k = j + (k + 1) by omega]
          exact hs)
      refine ⟨r', ?_⟩
      rw [lomLoop_cons_some headers false t ts j r nm h, hr']
      simp only [List.length_cons]
      rw [show j + 1 + ts.length = j + (ts.length + 1) by omega]

theorem molLoop_overflow :
    ∀ (tokens : List Str) (headers : NatMap) (j N : Nat) (m : MolMap),
      (∀ k, (nmGet headers k).isSome ↔ k < N) →
      j ≤ N → N < j + tokens.length →
      ∃ m', molLoop headers false tokens j m = (m', N, some (overflowMsg N)) := by
  intro tokens
  induction tokens with
  | nil => intro headers j N m _ h1 h2; simp at h2; omega
  | cons t ts ih =>
    intro headers j N m hiff h1 h2
    by_cases hj : j < N
    · have h0 : (nmGet headers j).isSome := (hiff j).2 hj
      cases h : nmGet headers j with
      | none => rw [h] at h0; simp at h0
      | some nm =>
        obtain ⟨m', hm'⟩ := ih headers (j + 1) N (molVisit m nm (stripNL t)) hiff
          (by omega) (by simp at h2 ⊢; omega)
        exact ⟨m', by rw [molLoop_cons_some headers false t ts j m nm h, hm']⟩
    · have hjN : j = N := by omega
      subst hjN
      have h0 : ¬ (nmGet headers j).isSome := by
        rw [hiff j]; omega
      cases h : nmGet headers j with
      | some nm => rw [h] at h0; simp at h0
      | none => exact ⟨m, molLoop_cons_none_false headers t ts j m h⟩

theorem lomLoop_overflow :
    ∀ (tokens : List Str) (headers : NatMap) (j N : Nat) (r : RowMap),
      (∀ k, (nmGet headers k).isSome ↔ k < N) →
      j ≤ N → N < j + tokens.length →
      ∃ r', lomLoop headers false tokens j r = (r', N, some (overflowMsg N)) := by
  intro tokens
  induction tokens with
  | nil => intro headers j N r _ h1 h2; simp at h2; omega
  | cons t ts ih =>
    intro headers j N r hiff h1 h2
    by_cases hj : j < N
    · have h0 : (nmGet headers j).isSome := (hiff j).2 hj
      cases h : nmGet headers j with
      | none => rw [h] at h0; simp at h0
      | some nm =>
        obtain ⟨r', hr'⟩ := ih headers (j + 1) N (rmInsert r nm (stripNL t)) hiff
          (by omega) (by simp at h2 ⊢; omega)
        exact ⟨r', by rw [lomLoop_cons_some headers false t ts j r nm h, hr']⟩
    · have hjN : j = N := by omega
      subst hjN
      have h0 : ¬ (nmGet headers j).isSome := by
        rw [hiff j]; omega
      cases h : nmGet headers j with
      | some nm => rw [h] at h0; simp at h0
      | none => exact ⟨r, lomLoop_cons_none_false headers t ts j r h⟩

theorem headers_isSome_iff (hts : List Str) :
    ∀ k, (nmGet (process_headers hts) k).isSome ↔ k < hts.length := by
  intro k
  rw [process_headers_get, List.get?_eq_getElem?, getElem?_isSome_iff]
  simp

/-- Strict mode, overflow: a line longer than the header fails with the
out-of-bounds message at the first excess index, which is the header's
column count. -/
theorem process_mol_strict_overflow (hts tokens : List Str) (m : MolMap)
    (h : hts.length < tokens.length) :
    ∃ m', process_line_for_map_of_lists tokens (process_headers hts) m false
      = (m', some (overflowMsg hts.length)) := by
  obtain ⟨m', hm'⟩ := molLoop_overflow tokens (process_headers hts) 0 hts.length m
    (headers_isSome_iff hts) (by omega) (by omega)
  exact ⟨m', by rw [process_line_for_map_of_lists, hm']⟩

theorem process_lom_strict_overflow (hts tokens : List Str) (lom : List RowMap)
    (h : hts.length < tokens.length) :
    process_line_for_list_of_maps tokens (process_headers hts) lom false
      = (lom, some (overflowMsg hts.length)) := by
  obtain ⟨r', hr'⟩ := lomLoop_overflow tokens (process_headers hts) 0 hts.length []
    (headers_isSome_iff hts) (by omega) (by omega)
  rw [process_line_for_list_of_maps, hr']

/-- Strict mode, underflow: a line shorter than the header fails after the
loop with the line-too-short message carrying the header's column count and
the number of tokens consumed. -/
theorem process_mol_strict_underflow (hts tokens : List Str) (m : MolMap)
    (h : tokens.length < hts.length) :
    ∃ m', process_line_for_map_of_lists tokens (process_headers hts) m false
      = (m', some (underflowMsg hts.length tokens.length)) := by
  obtain ⟨m', hm'⟩ := molLoop_no_overflow tokens (process_headers hts) 0 m
    (fun k hk => by rw [Nat.zero_add]; exact (headers_isSome_iff hts k).2 (by omega))
  refine ⟨m', ?_⟩
  rw [process_line_for_map_of_lists, hm']
  simp only [Nat.zero_add, process_headers_length]
  rw [if_pos h]
  rfl

theorem process_lom_strict_underflow (hts tokens : List Str) (lom : List RowMap)
    (h : tokens.length < hts.length) :
    process_line_for_list_of_maps tokens (process_headers hts) lom false
      = (lom, some (underflowMsg hts.length tokens.length)) := by
  obtain ⟨r', hr'⟩ := lomLoop_no_overflow tokens (process_headers hts) 0 []
    (fun k hk => by rw [Nat.zero_add]; exact (headers_isSome_iff hts k).2 (by omega))
  rw [process_line_for_list_of_maps, hr']
  simp only [Nat.zero_add, process_headers_length]
  rw [if_pos h]
  rfl

/-- Strict mode, well-formed line: token count equal to the header count
succeeds. -/
theorem process_mol_strict_exact (hts tokens : List Str) (m : MolMap)
    (h : tokens.length = hts.length) :
    ∃ m', process_line_for_map_of_lists tokens (process_headers hts) m false
      = (m', none) := by
  obtain ⟨m', hm'⟩ := molLoop_no_overflow tokens (process_headers hts) 0 m
    (fun k hk => by rw [Nat.zero_add]; exact (headers_isSome_iff hts k).2 (by omega))
  refine ⟨m', ?_⟩
  rw [process_line_for_map_of_lists, hm']
  simp only [Nat.zero_add, process_headers_length]
  rw [if_neg (by omega)]

theorem process_lom_strict_exact (hts tokens : List Str) (lom : List RowMap)
    (h : tokens.length = hts.length) :
    ∃ lom', process_line_for_list_of_maps tokens (process_headers hts) lom false
      = (lom', none) := by
  obtain ⟨r', hr'⟩ := lomLoop_no_overflow tokens (process_headers hts) 0 []
    (fun k hk => by rw [Nat.zero_add]; exact (headers_isSome_iff hts k).2 (by omega))
  refine ⟨lom ++ [r'], ?_⟩
  rw [process_line_for_list_of_maps, hr']
  simp only [Nat.zero_add, process_headers_length]
  rw [if_neg (by omega)]

/-! ### Driver lemmas -/

theorem process_input_cons (lines : List Str) (hdr : Str) (res : CsvResult)
    (allow_anomalies : Bool) :
    process_input (hdr :: lines) res allow_anomalies
      = process_input_go allow_anomalies lines
          (some (process_headers (splitOnComma hdr))) res := by
  rfl

theorem process_input_go_cons_mol_ok (allow_anomalies : Bool) (line : Str)
    (rest : List Str) (headers : NatMap) (m m' : MolMap)
    (h : process_line_for_map_of_lists (splitOnComma line) headers m
      allow_anomalies = (m', none)) :
    process_input_go allow_anomalies (line :: rest) (some headers) (.MapOfLists m)
      = process_input_go allow_anomalies rest (some headers) (.MapOfLists m') := by
  rw [process_input_go, h]

theorem process_input_go_cons_mol_err (allow_anomalies : Bool) (line : Str)
    (rest : List Str) (headers : NatMap) (m m' : MolMap) (e : String)
    (h : process_line_for_map_of_lists (splitOnComma line) headers m
      allow_anomalies = (m', some e)) :
    process_input_go allow_anomalies (line :: rest) (some headers) (.MapOfLists m)
      = .error e := by
  rw [process_input_go, h]

theorem process_input_go_cons_lom_ok (allow_anomalies : Bool) (line : Str)
    (rest : List Str) (headers : NatMap) (lom lom' : List RowMap)
    (h : process_line_for_list_of_maps (splitOnComma line) headers lom
      allow_anomalies = (lom', none)) :
    process_input_go allow_anomalies (line :: rest) (some headers) (.ListOfMaps lom)
      = process_input_go allow_anomalies rest (some headers) (.ListOfMaps lom') := by
  rw [process_input_go, h]

theorem process_input_go_cons_lom_err (allow_anomalies : Bool) (line : Str)
    (rest : List Str) (headers : NatMap) (lom lom' : List RowMap) (e : String)
    (h : process_line_for_list_of_maps (splitOnComma line) headers lom
      allow_anomalies = (lom', some e)) :
    process_input_go allow_anomalies (line :: rest) (some headers) (.ListOfMaps lom)
      = .error e := by
  rw [process_input_go, h]

/-- Strict mode: if any data line's token count differs from the header's,
the run aborts with an error, for either accumulation shape. -/
theorem process_input_go_strict_error (hts : List Str) :
    ∀ (lines : List Str) (res : CsvResult),
      (∃ l ∈ lines, (splitOnComma l).length ≠ hts.length) →
      ∃ e, process_input_go false lines (some (process_headers hts)) res = .error e := by
  intro lines
  induction lines with
  | nil => intro res h; simp at h
  | cons l ls ih =>
    intro res h
    by_cases hl : (splitOnComma l).length = hts.length
    · have hbad : ∃ x ∈ ls, (splitOnComma x).length ≠ hts.length := by
        rcases h with ⟨x, hx, hne⟩
        rcases List.mem_cons.1 hx with rfl | hx'
        · exact absurd hl hne
        · exact ⟨x, hx', hne⟩
      cases res with
      | MapOfLists m =>
        obtain ⟨m', hm'⟩ := process_mol_strict_exact hts (splitOnComma l) m hl
        obtain ⟨e, he⟩ := ih (.MapOfLists m') hbad
        exact ⟨e, by
          rw [process_input_go_cons_mol_ok false l ls _ m m' hm', he]⟩
      | ListOfMaps lom =>
        obtain ⟨lom', hlom'⟩ := process_lom_strict_exact hts (splitOnComma l) lom hl
        obtain ⟨e, he⟩ := ih (.ListOfMaps lom') hbad
        exact ⟨e, by
          rw [process_input_go_cons_lom_ok false l ls _ lom lom' hlom', he]⟩
    · cases res with
      | MapOfLists m =>
        rcases Nat.lt_or_ge hts.length (splitOnComma l).length with hgt | hge
        · obtain ⟨m', hm'⟩ := process_mol_strict_overflow hts (splitOnComma l) m hgt
          exact ⟨overflowMsg hts.length,
            process_input_go_cons_mol_err false l ls _ m m' _ hm'⟩
        · have hlt : (splitOnComma l).length < hts.length := by omega
          obtain ⟨m', hm'⟩ := process_mol_strict_underflow hts (splitOnComma l) m hlt
          exact ⟨underflowMsg hts.length (splitOnComma l).length,
            process_input_go_cons_mol_err false l ls _ m m' _ hm'⟩
      | ListOfMaps lom =>
        rcases Nat.lt_or_ge hts.length (splitOnComma l).length with hgt | hge
        · exact ⟨overflowMsg hts.length,
            process_input_go_cons_lom_err false l ls _ lom lom _
              (process_lom_strict_overflow hts (splitOnComma l) lom hgt)⟩
        · have hlt : (splitOnComma l).length < hts.length := by omega
          exact ⟨underflowMsg hts.length (splitOnComma l).length,
            process_input_go_cons_lom_err false l ls _ lom lom _
              (process_lom_strict_underflow hts (splitOnComma l) lom hlt)⟩

/-- A tolerant map-of-lists run is `molRunGo` over the cleaned header names. -/
theorem process_input_go_mol_true (hts : List Str) :
    ∀ (lines : List Str) (m : MolMap),
      process_input_go true lines (some (process_headers hts)) (.MapOfLists m)
        = .ok (.MapOfLists (molRunGo (hts.map stripNL) lines m)) := by
  intro lines
  induction lines with
  | nil => intro m; simp [process_input_go, molRunGo]
  | cons l ls ih =>
    intro m
    rw [process_input_go_cons_mol_ok true l ls _ m _
      (process_mol_true hts (splitOnComma l) m), ih, molRunGo]

/-- A tolerant list-of-maps run is `lomRunGo` over the cleaned header names. -/
theorem process_input_go_lom_true (hts : List Str) :
    ∀ (lines : List Str) (acc : List RowMap),
      process_input_go true lines (some (process_headers hts)) (.ListOfMaps acc)
        = .ok (.ListOfMaps (lomRunGo (hts.map stripNL) lines acc)) := by
  intro lines
  induction lines with
  | nil => intro acc; simp [process_input_go, lomRunGo]
  | cons l ls ih =>
    intro acc
    rw [process_input_go_cons_lom_ok true l ls _ acc _
      (process_lom_true hts (splitOnComma l) acc), ih, lomRunGo]

/-- A tolerant list-of-maps run never fails and appends exactly one row per
data line, whatever the header map is. -/
theorem process_input_go_lom_true_len :
    ∀ (lines : List Str) (headers : NatMap) (acc : List RowMap),
      ∃ r, process_input_go true lines (some headers) (.ListOfMaps acc)
          = .ok (.ListOfMaps r)
        ∧ r.length = acc.length + lines.length := by
  intro lines
  induction lines with
  | nil => intro headers acc; exact ⟨acc, by simp [process_input_go]⟩
  | cons l ls ih =>
    intro headers acc
    obtain ⟨row, hrow⟩ := process_lom_true_append (splitOnComma l) headers acc
    obtain ⟨r, hr, hlen⟩ := ih headers (acc ++ [row])
    refine ⟨r, ?_, ?_⟩
    · rw [process_input_go_cons_lom_ok true l ls headers acc _ hrow, hr]
    · rw [hlen]
      simp
      omega


/-! ### Per-name characterizations of the line walks -/

theorem extendCol_nil (o : Option (List Str)) : extendCol o [] = o := rfl

theorem extendCol_push (o : Option (List Str)) (v : Str) (vs : List Str) :
    extendCol (some (o.getD [] ++ [v])) vs = extendCol o (v :: vs) := by
  cases vs with
  | nil => simp [extendCol]
  | cons w ws => simp [extendCol]

theorem molLineGo_get_notmem :
    ∀ (names tokens : List Str) (m : MolMap) (nm : Str), nm ∉ names →
      smGet (molLineGo names tokens m) nm = smGet m nm := by
  intro names
  induction names with
  | nil => intro tokens m nm _; rw [molLineGo_nil]
  | cons k ks ih =>
    intro tokens m nm hnm
    cases tokens with
    | nil => rfl
    | cons t ts =>
      rw [molLineGo]
      have hk : k ≠ nm := fun h => hnm (h ▸ List.mem_cons_self k ks)
      rw [ih ts _ nm (fun h => hnm (List.mem_cons_of_mem _ h)),
        molVisit_get_ne _ _ _ _ hk]

theorem rowLineGo_get_notmem :
    ∀ (names tokens : List Str) (r : RowMap) (nm : Str), nm ∉ names →
      rmGet (rowLineGo names tokens r) nm = rmGet r nm := by
  intro names
  induction names with
  | nil => intro tokens r nm _; rw [rowLineGo_nil]
  | cons k ks ih =>
    intro tokens r nm hnm
    cases tokens with
    | nil => rfl
    | cons t ts =>
      rw [rowLineGo]
      have hk : k ≠ nm := fun h => hnm (h ▸ List.mem_cons_self k ks)
      rw [ih ts _ nm (fun h => hnm (List.mem_cons_of_mem _ h)),
        rmGet_rmInsert_ne _ _ _ _ hk]

theorem molLineGo_get_dup :
    ∀ (names tokens : List Str) (m : MolMap) (nm : Str),
      smGet (molLineGo names tokens m) nm
        = extendCol (smGet m nm) (dupVals nm names tokens) := by
  intro names
  induction names with
  | nil =>
    intro tokens m nm
    rw [molLineGo_nil]
    cases tokens <;> rfl
  | cons k ks ih =>
    intro tokens m nm
    cases tokens with
    | nil => rfl
    | cons t ts =>
      rw [molLineGo, ih ts _ nm, dupVals]
      by_cases hk : k = nm
      · subst hk
        rw [if_pos rfl, molVisit_get_self]
        exact extendCol_push _ _ _
      · rw [if_neg hk, molVisit_get_ne _ _ _ _ hk]

theorem rowLineGo_get_lastWrite :
    ∀ (names tokens : List Str) (r : RowMap) (nm : Str),
      rmGet (rowLineGo names tokens r) nm
        = match lastWrite nm names tokens with
          | some v => some v
          | none => rmGet r nm := by
  intro names
  induction names with
  | nil =>
    intro tokens r nm
    rw [rowLineGo_nil]
    cases tokens <;> rfl
  | cons k ks ih =>
    intro tokens r nm
    cases tokens with
    | nil => rfl
    | cons t ts =>
      rw [rowLineGo, ih ts _ nm, lastWrite]
      cases hlw : lastWrite nm ks ts with
      | some v => rfl
      | none =>
        by_cases hk : k = nm
        · subst hk
          rw [if_pos rfl]
          simp [rmGet_rmInsert_self]
        · rw [if_neg hk]
          simp [rmGet_rmInsert_ne _ _ _ _ hk]

theorem dupVals_notmem :
    ∀ (names tokens : List Str) (nm : Str), nm ∉ names →
      dupVals nm names tokens = [] := by
  intro names
  induction names with
  | nil => intro tokens nm _; cases tokens <;> rfl
  | cons k ks ih =>
    intro tokens nm hnm
    cases tokens with
    | nil => rfl
    | cons t ts =>
      have hk : ¬ k = nm := fun h => hnm (h ▸ List.mem_cons_self k ks)
      rw [dupVals, if_neg hk]
      exact ih ts nm (fun h => hnm (List.mem_cons_of_mem _ h))

theorem lastWrite_notmem :
    ∀ (names tokens : List Str) (nm : Str), nm ∉ names →
      lastWrite nm names tokens = none := by
  intro names
  induction names with
  | nil => intro tokens nm _; cases tokens <;> rfl
  | cons k ks ih =>
    intro tokens nm hnm
    cases tokens with
    | nil => rfl
    | cons t ts =>
      have hk : ¬ k = nm := fun h => hnm (h ▸ List.mem_cons_self k ks)
      rw [lastWrite, ih ts nm (fun h => hnm (List.mem_cons_of_mem _ h)), if_neg hk]

theorem dupVals_nodup :
    ∀ (names : List Str), names.Nodup → ∀ (i : Nat) (nm : Str),
      names[i]? = some nm → ∀ (tokens : List Str),
      dupVals nm names tokens
        = match tokens[i]? with
          | some t => [stripNL t]
          | none => [] := by
  intro names
  induction names with
  | nil => intro _ i nm h; simp at h
  | cons k ks ih =>
    intro hnd i nm hget tokens
    cases tokens with
    | nil =>
      cases i <;> simp [dupVals]
    | cons t ts =>
      cases i with
      | zero =>
        have hk : k = nm := by simpa using hget
        subst hk
        rw [dupVals, if_pos rfl,
          dupVals_notmem ks ts k (List.nodup_cons.1 hnd).1]
        simp
      | succ j =>
        have hget' : ks[j]? = some nm := by simpa using hget
        have hmem : nm ∈ ks := by
          rw [List.mem_iff_getElem?]
          exact ⟨j, hget'⟩
        have hk : k ≠ nm := fun h => (List.nodup_cons.1 hnd).1 (h ▸ hmem)
        rw [dupVals, if_neg hk, ih (List.nodup_cons.1 hnd).2 j nm hget' ts]
        simp

theorem lastWrite_nodup :
    ∀ (names : List Str), names.Nodup → ∀ (i : Nat) (nm : Str),
      names[i]? = some nm → ∀ (tokens : List Str),
      lastWrite nm names tokens = (tokens[i]?).map stripNL := by
  intro names
  induction names with
  | nil => intro _ i nm h; simp at h
  | cons k ks ih =>
    intro hnd i nm hget tokens
    cases tokens with
    | nil =>
      cases i <;> simp [lastWrite]
    | cons t ts =>
      cases i with
      | zero =>
        have hk : k = nm := by simpa using hget
        subst hk
        rw [lastWrite, lastWrite_notmem ks ts k (List.nodup_cons.1 hnd).1,
          if_pos rfl]
        simp
      | succ j =>
        have hget' : ks[j]? = some nm := by simpa using hget
        have hmem : nm ∈ ks := by
          rw [List.mem_iff_getElem?]
          exact ⟨j, hget'⟩
        have hk : k ≠ nm := fun h => (List.nodup_cons.1 hnd).1 (h ▸ hmem)
        rw [lastWrite, ih (List.nodup_cons.1 hnd).2 j nm hget' ts]
        cases hts : ts[j]? with
        | some v => simp [List.getElem?_cons_succ, hts]
        | none => simp [List.getElem?_cons_succ, hts, if_neg hk]

theorem molLineGo_get_nodup (names : List Str) (hnd : names.Nodup) (i : Nat)
    (nm : Str) (hget : names[i]? = some nm) (tokens : List Str) (m : MolMap) :
    smGet (molLineGo names tokens m) nm
      = match tokens[i]? with
        | some t => some ((smGet m nm).getD [] ++ [stripNL t])
        | none => smGet m nm := by
  rw [molLineGo_get_dup names tokens m nm,
    dupVals_nodup names hnd i nm hget tokens]
  cases tokens[i]? with
  | some t => simp [extendCol]
  | none => rfl

theorem rowLineGo_get_nodup (names : List Str) (hnd : names.Nodup) (i : Nat)
    (nm : Str) (hget : names[i]? = some nm) (tokens : List Str) (r : RowMap) :
    rmGet (rowLineGo names tokens r) nm
      = match tokens[i]? with
        | some t => some (stripNL t)
        | none => rmGet r nm := by
  rw [rowLineGo_get_lastWrite names tokens r nm,
    lastWrite_nodup names hnd i nm hget tokens]
  cases tokens[i]? with
  | some t => rfl
  | none => rfl

/-! ### Run-level characterizations -/

theorem molRunGo_get_nodup (names : List Str) (hnd : names.Nodup) (i : Nat)
    (nm : Str) (hget : names[i]? = some nm) :
    ∀ (lines : List Str) (m : MolMap),
      smGet (molRunGo names lines m) nm
        = extendCol (smGet m nm) (colVals i lines) := by
  intro lines
  induction lines with
  | nil => intro m; rfl
  | cons l ls ih =>
    intro m
    rw [molRunGo, ih (molLineGo names (splitOnComma l) m),
      molLineGo_get_nodup names hnd i nm hget (splitOnComma l) m, colVals]
    cases h : (splitOnComma l)[i]? with
    | some t => exact extendCol_push _ _ _
    | none => rfl

theorem molRunGo_get_notmem (names : List Str) (nm : Str) (hnm : nm ∉ names) :
    ∀ (lines : List Str) (m : MolMap),
      smGet (molRunGo names lines m) nm = smGet m nm := by
  intro lines
  induction lines with
  | nil => intro m; rfl
  | cons l ls ih =>
    intro m
    rw [molRunGo, ih, molLineGo_get_notmem names _ m nm hnm]

theorem lomRunGo_eq :
    ∀ (lines : List Str) (names : List Str) (acc : List RowMap),
      lomRunGo names lines acc
        = acc ++ lines.map (fun l => rowLineGo names (splitOnComma l) []) := by
  intro lines
  induction lines with
  | nil => intro names acc; simp [lomRunGo]
  | cons l ls ih =>
    intro names acc
    rw [lomRunGo, ih]
    simp

/-! ### Column-value list lemmas -/

theorem colVals_length_le (i : Nat) :
    ∀ (lines : List Str), (colVals i lines).length ≤ lines.length := by
  intro lines
  induction lines with
  | nil => simp [colVals]
  | cons l ls ih =>
    rw [colVals]
    cases h : (splitOnComma l)[i]? with
    | some t => simpa using Nat.succ_le_succ ih
    | none => simpa using Nat.le_succ_of_le ih

theorem colVals_length_countP (i : Nat) :
    ∀ (lines : List Str),
      (colVals i lines).length
        = lines.countP (fun l => decide (i < (splitOnComma l).length)) := by
  intro lines
  induction lines with
  | nil => simp [colVals]
  | cons l ls ih =>
    rw [colVals, List.countP_cons]
    cases h : (splitOnComma l)[i]? with
    | some t =>
      have hi : i < (splitOnComma l).length := by
        have := (getElem?_isSome_iff (splitOnComma l) i).1 (by rw [h]; rfl)
        exact this
      simp [hi, ih]
    | none =>
      have hi : ¬ i < (splitOnComma l).length := by
        intro hc
        rw [List.getElem?_eq_getElem hc] at h
        simp at h
      simp [hi, ih]

theorem colVals_wellformed (i : Nat) :
    ∀ (lines : List Str), (∀ l ∈ lines, i < (splitOnComma l).length) →
      colVals i lines
        = lines.map (fun l => stripNL (((splitOnComma l)[i]?).getD [])) := by
  intro lines
  induction lines with
  | nil => intro _; rfl
  | cons l ls ih =>
    intro hwf
    have hi : i < (splitOnComma l).length := hwf l (List.mem_cons_self l ls)
    rw [colVals, List.getElem?_eq_getElem hi,
      ih (fun x hx => hwf x (List.mem_cons_of_mem _ hx))]
    simp [List.getElem?_eq_getElem hi]

/-! ### Lazily created lists are nonempty -/

theorem molVisit_vals_nonempty (m : MolMap) (k v : Str)
    (hm : ∀ nm vs, smGet m nm = some vs → vs ≠ []) :
    ∀ nm vs, smGet (molVisit m k v) nm = some vs → vs ≠ [] := by
  intro nm vs h
  by_cases hk : k = nm
  · subst hk
    rw [molVisit_get_self] at h
    have := Option.some.inj h
    subst this
    simp
  · rw [molVisit_get_ne _ _ _ _ hk] at h
    exact hm nm vs h

theorem molLineGo_vals_nonempty :
    ∀ (names tokens : List Str) (m : MolMap),
      (∀ nm vs, smGet m nm = some vs → vs ≠ []) →
      ∀ nm vs, smGet (molLineGo names tokens m) nm = some vs → vs ≠ [] := by
  intro names
  induction names with
  | nil =>
    intro tokens m hm nm vs h
    rw [molLineGo_nil] at h
    exact hm nm vs h
  | cons k ks ih =>
    intro tokens m hm
    cases tokens with
    | nil => exact hm
    | cons t ts =>
      rw [molLineGo]
      exact ih ts _ (molVisit_vals_nonempty m k (stripNL t) hm)

theorem molRunGo_vals_nonempty :
    ∀ (lines names : List Str) (m : MolMap),
      (∀ nm vs, smGet m nm = some vs → vs ≠ []) →
      ∀ nm vs, smGet (molRunGo names lines m) nm = some vs → vs ≠ [] := by
  intro lines
  induction lines with
  | nil => intro names m hm; exact hm
  | cons l ls ih =>
    intro names m hm
    rw [molRunGo]
    exact ih names _ (molLineGo_vals_nonempty names (splitOnComma l) m hm)


/-! ### Tokenizer lemmas -/

theorem splitOnComma_ne_nil : ∀ (s : Str), splitOnComma s ≠ [] := by
  intro s
  cases s with
  | nil => simp [splitOnComma]
  | cons c rest =>
    rw [splitOnComma]
    cases h : splitOnComma rest with
    | nil => simp
    | cons t ts => by_cases hc : c = ',' <;> simp [hc]

theorem splitOnComma_cons_eq (c : Char) (rest : Str) (t : Str) (ts : List Str)
    (h : splitOnComma rest = t :: ts) :
    splitOnComma (c :: rest)
      = if c = ',' then [] :: t :: ts else (c :: t) :: ts := by
  rw [splitOnComma, h]

theorem joinComma_splitOnComma : ∀ (s : Str), joinComma (splitOnComma s) = s := by
  intro s
  induction s with
  | nil => rfl
  | cons c rest ih =>
    cases h : splitOnComma rest with
    | nil => exact absurd h (splitOnComma_ne_nil rest)
    | cons t ts =>
      rw [h] at ih
      rw [splitOnComma_cons_eq c rest t ts h]
      by_cases hc : c = ','
      · subst hc
        rw [if_pos rfl]
        show [] ++ ',' :: joinComma (t :: ts) = ',' :: rest
        rw [ih]
        rfl
      · rw [if_neg hc]
        cases ts with
        | nil =>
          have h5 : t = rest := ih
          rw [show joinComma [c :: t] = c :: t from rfl, h5]
        | cons t2 ts2 =>
          have h5 : t ++ ',' :: joinComma (t2 :: ts2) = rest := ih
          rw [show joinComma ((c :: t) :: t2 :: ts2)
              = (c :: t) ++ ',' :: joinComma (t2 :: ts2) from rfl,
            List.cons_append, h5]

theorem splitOnComma_no_comma :
    ∀ (s : Str) (t : Str), t ∈ splitOnComma s → ',' ∉ t := by
  intro s
  induction s with
  | nil =>
    intro t ht
    simp [splitOnComma] at ht
    simp [ht]
  | cons c rest ih =>
    intro t ht
    cases h : splitOnComma rest with
    | nil => exact absurd h (splitOnComma_ne_nil rest)
    | cons t0 ts =>
      rw [splitOnComma_cons_eq c rest t0 ts h] at ht
      by_cases hc : c = ','
      · rw [if_pos hc] at ht
        rcases List.mem_cons.1 ht with rfl | ht2
        · simp
        · exact ih t (by rw [h]; exact ht2)
      · rw [if_neg hc] at ht
        rcases List.mem_cons.1 ht with rfl | ht2
        · intro hmem
          rcases List.mem_cons.1 hmem with hcc | hmem2
          · exact hc hcc.symm
          · exact ih t0 (by rw [h]; exact List.mem_cons_self t0 ts) hmem2
        · exact ih t (by rw [h]; exact List.mem_cons_of_mem _ ht2)

theorem stripNL_id : ∀ (t : Str), '\n' ∉ t → stripNL t = t := by
  intro t
  induction t with
  | nil => intro _; rfl
  | cons c cs ih =>
    intro h
    have hc : ¬ c = '\n' := fun hcc => h (hcc ▸ List.mem_cons_self c cs)
    rw [stripNL, if_neg hc, ih (fun hm => h (List.mem_cons_of_mem _ hm))]

theorem splitOnComma_strip_trailing :
    ∀ (body : Str), '\n' ∉ body →
      (splitOnComma (body ++ ['\n'])).map stripNL = splitOnComma body := by
  intro body
  induction body with
  | nil => intro _; decide
  | cons c rest ih =>
    intro hnl
    have hc_ne : ¬ c = '\n' := fun h => hnl (h ▸ List.mem_cons_self c rest)
    have hrest : '\n' ∉ rest := fun h => hnl (List.mem_cons_of_mem _ h)
    have hih := ih hrest
    rw [List.cons_append]
    cases h1 : splitOnComma (rest ++ ['\n']) with
    | nil => exact absurd h1 (splitOnComma_ne_nil _)
    | cons t ts =>
      rw [h1] at hih
      cases h2 : splitOnComma rest with
      | nil => exact absurd h2 (splitOnComma_ne_nil _)
      | cons t2 ts2 =>
        rw [h2] at hih
        simp only [List.map_cons] at hih
        injection hih with h3 h4
        rw [splitOnComma_cons_eq c _ t ts h1,
          splitOnComma_cons_eq c rest t2 ts2 h2]
        by_cases hc : c = ','
        · rw [if_pos hc, if_pos hc]
          simp [stripNL, h3, h4]
        · rw [if_neg hc, if_neg hc]
          simp [stripNL, hc_ne, h3, h4]

/-! ### Format selector: unrecognized tokens -/

theorem from_format_str_unknown (s : String)
    (h1 : s ≠ "list-of-maps") (h2 : s ≠ "lom") (h3 : s ≠ "l")
    (h4 : s ≠ "map-of-lists") (h5 : s ≠ "mol") (h6 : s ≠ "m") :
    from_format_str s = .error ("Unknown format string: " ++ s) := by
  have hnone : strLookup get_str_map s = none := by
    simp [strLookup, get_str_map, FORMAT_NAME_LIST_OF_MAPS,
      FORMAT_NAME_LIST_OF_MAPS_SHORTENED, FORMAT_NAME_MAP_OF_LISTS,
      FORMAT_NAME_MAP_OF_LISTS_SHORTENED,
      Ne.symm h1, Ne.symm h2, Ne.symm h3, Ne.symm h4, Ne.symm h5, Ne.symm h6]
  rw [from_format_str, hnone]

/-! ### Error paths leave the list-of-maps vector untouched -/

theorem process_lom_eq_some (tokens : List Str) (headers : NatMap)
    (lom : List RowMap) (allow_anomalies : Bool) (map : RowMap) (i : Nat)
    (e : String)
    (hq : lomLoop headers allow_anomalies tokens 0 [] = (map, i, some e)) :
    process_line_for_list_of_maps tokens headers lom allow_anomalies
      = (lom, some e) := by
  rw [process_line_for_list_of_maps, hq]

theorem process_lom_eq_none (tokens : List Str) (headers : NatMap)
    (lom : List RowMap) (allow_anomalies : Bool) (map : RowMap) (i : Nat)
    (hq : lomLoop headers allow_anomalies tokens 0 [] = (map, i, none)) :
    process_line_for_list_of_maps tokens headers lom allow_anomalies
      = if i < headers.length then
          if allow_anomalies then (lom ++ [map], none)
          else (lom, some (underflowMsg headers.length i))
        else (lom ++ [map], none) := by
  rw [process_line_for_list_of_maps, hq]

theorem process_lom_err_preserves (tokens : List Str) (headers : NatMap)
    (lom : List RowMap) (allow_anomalies : Bool) (e : String)
    (h : (process_line_for_list_of_maps tokens headers lom allow_anomalies).2
      = some e) :
    (process_line_for_list_of_maps tokens headers lom allow_anomalies).1
      = lom := by
  rcases hq : lomLoop headers allow_anomalies tokens 0 [] with ⟨map, i, err⟩
  cases err with
  | some e2 =>
    rw [process_lom_eq_some tokens headers lom allow_anomalies map i e2 hq]
  | none =>
    rw [process_lom_eq_none tokens headers lom allow_anomalies map i hq] at h ⊢
    by_cases hi : i < headers.length
    · rw [if_pos hi] at h ⊢
      cases allow_anomalies with
      | true => simp at h
      | false => rfl
    · rw [if_neg hi] at h ⊢
      simp at h


/-! ## Claim theorems -/

/-- C1: In strict mode (`allow_anomalies = false`), any data line whose token
count differs from the header's column count makes the whole run fail with an
error, for both accumulation shapes, so no output is produced.  At line
level, an overflow fails during the token loop with the message naming the
first out-of-bounds zero-based index (which is the header's column count),
and an underflow fails after the loop with the message carrying the header's
column count and the number of tokens consumed. -/
theorem C1_strict_mode_fails :
    (∀ (res : CsvResult) (hdr : Str) (lines : List Str),
      (∃ l ∈ lines, (splitOnComma l).length ≠ (splitOnComma hdr).length) →
      ∃ e, process_input (hdr :: lines) res false = .error e)
    ∧ (∀ (hts tokens : List Str) (m : MolMap), hts.length < tokens.length →
        ∃ m', process_line_for_map_of_lists tokens (process_headers hts) m false
          = (m', some (overflowMsg hts.length)))
    ∧ (∀ (hts tokens : List Str) (lom : List RowMap), hts.length < tokens.length →
        process_line_for_list_of_maps tokens (process_headers hts) lom false
          = (lom, some (overflowMsg hts.length)))
    ∧ (∀ (hts tokens : List Str) (m : MolMap), tokens.length < hts.length →
        ∃ m', process_line_for_map_of_lists tokens (process_headers hts) m false
          = (m', some (underflowMsg hts.length tokens.length)))
    ∧ (∀ (hts tokens : List Str) (lom : List RowMap), tokens.length < hts.length →
        process_line_for_list_of_maps tokens (process_headers hts) lom false
          = (lom, some (underflowMsg hts.length tokens.length))) := by
  refine ⟨?_, process_mol_strict_overflow, process_lom_strict_overflow,
    process_mol_strict_underflow, process_lom_strict_underflow⟩
  intro res hdr lines hbad
  rw [process_input_cons]
  exact process_input_go_strict_error (splitOnComma hdr) lines res hbad

/-- Witness for C1: concrete strict-mode failures (underflow line `1` under
header `a,b` in both shapes; overflow line `1,2,3`; underflow message). -/
theorem C1_strict_mode_fails_witness :
    (∃ e, process_input [['a', ',', 'b'], ['1']] (CsvResult.MapOfLists []) false
      = .error e)
    ∧ (∃ e, process_input [['a', ',', 'b'], ['1', ',', '2', ',', '3']]
        (CsvResult.ListOfMaps []) false = .error e)
    ∧ process_line_for_list_of_maps [['1'], ['2'], ['3']]
        (process_headers [['a'], ['b']]) [] false
        = ([], some (overflowMsg 2))
    ∧ process_line_for_list_of_maps [['1']]
        (process_headers [['a'], ['b']]) [] false
        = ([], some (underflowMsg 2 1)) := by
  refine ⟨?_, ?_, ?_, ?_⟩
  · exact C1_strict_mode_fails.1 (CsvResult.MapOfLists []) ['a', ',', 'b']
      [['1']] ⟨['1'], by decide⟩
  · exact C1_strict_mode_fails.1 (CsvResult.ListOfMaps []) ['a', ',', 'b']
      [['1', ',', '2', ',', '3']] ⟨['1', ',', '2', ',', '3'], by decide⟩
  · exact C1_strict_mode_fails.2.2.1 [['a'], ['b']] [['1'], ['2'], ['3']] []
      (by decide)
  · exact C1_strict_mode_fails.2.2.2.2 [['a'], ['b']] [['1']] [] (by decide)

/-- C2: In ListOfMaps mode with anomalies tolerated, the run always succeeds
and the result's length equals the number of data lines processed; each data
line appends exactly one (possibly empty) row record, whatever the header
map, regardless of overflow or underflow anomalies on that line. -/
theorem C2_lom_record_count :
    (∀ (hdr : Str) (lines : List Str),
      ∃ r, process_input (hdr :: lines) (CsvResult.ListOfMaps []) true
          = .ok (.ListOfMaps r)
        ∧ r.length = lines.length)
    ∧ (∀ (tokens : List Str) (headers : NatMap) (lom : List RowMap),
        ∃ row, process_line_for_list_of_maps tokens headers lom true
          = (lom ++ [row], none)) := by
  refine ⟨?_, process_lom_true_append⟩
  intro hdr lines
  obtain ⟨r, hr, hlen⟩ := process_input_go_lom_true_len lines
    (process_headers (splitOnComma hdr)) []
  exact ⟨r, by rw [process_input_cons]; exact hr, by simpa using hlen⟩

/-- C5: the format selector maps exactly the six recognized tokens to their
shapes, case-sensitively, and every other string fails with the
unknown-format error naming the offending string. -/
theorem C5_format_selector :
    from_format_str "list-of-maps" = .ok (.ListOfMaps [])
    ∧ from_format_str "lom" = .ok (.ListOfMaps [])
    ∧ from_format_str "l" = .ok (.ListOfMaps [])
    ∧ from_format_str "map-of-lists" = .ok (.MapOfLists [])
    ∧ from_format_str "mol" = .ok (.MapOfLists [])
    ∧ from_format_str "m" = .ok (.MapOfLists [])
    ∧ (∀ s : String, s ≠ "list-of-maps" → s ≠ "lom" → s ≠ "l" →
        s ≠ "map-of-lists" → s ≠ "mol" → s ≠ "m" →
        from_format_str s = .error ("Unknown format string: " ++ s)) :=
  ⟨by rfl, by rfl, by rfl, by rfl, by rfl, by rfl, from_format_str_unknown⟩

/-- Witness for C5: the upper-cased token "LOM" is rejected (selection is
case-sensitive) with the error naming it. -/
theorem C5_format_selector_witness :
    from_format_str "LOM" = .error ("Unknown format string: " ++ "LOM") :=
  C5_format_selector.2.2.2.2.2.2 "LOM" (by decide) (by decide) (by decide)
    (by decide) (by decide) (by decide)

/-- C6: header `a,b,c`, data `1,2,3` then `4,5`, tolerant mode: the
ListOfMaps result is the two records {a:1, b:2, c:3} and {a:4, b:5} (the
short line's record lacks key "c" entirely), and the MapOfLists result is
{a:[1,4], b:[2,5], c:[3]}. -/
theorem C6_example :
    process_input
        [['a', ',', 'b', ',', 'c'], ['1', ',', '2', ',', '3'], ['4', ',', '5']]
        (CsvResult.ListOfMaps []) true
      = .ok (.ListOfMaps [[(['a'], ['1']), (['b'], ['2']), (['c'], ['3'])],
                          [(['a'], ['4']), (['b'], ['5'])]])
    ∧ rmGet [(['a'], ['4']), (['b'], ['5'])] ['c'] = none
    ∧ process_input
        [['a', ',', 'b', ',', 'c'], ['1', ',', '2', ',', '3'], ['4', ',', '5']]
        (CsvResult.MapOfLists []) true
      = .ok (.MapOfLists [(['a'], [['1'], ['4']]), (['b'], [['2'], ['5']]),
                          (['c'], [['3']])]) :=
  ⟨by rfl, by rfl, by rfl⟩

/-- C7: tokenization splits on the comma delimiter only (rejoining with
commas restores the line, and no token contains a comma), an empty line
yields a single empty token, trailing newline characters are stripped inside
tokens after splitting (cleaning the tokens of `body ++ "\n"` gives exactly
the tokens of `body`), tokens without newlines — whitespace included — are
left untouched, and the header binder applies exactly this per-token
cleaning. -/
theorem C7_tokenization :
    splitOnComma [] = [([] : Str)]
    ∧ (∀ s : Str, joinComma (splitOnComma s) = s)
    ∧ (∀ (s t : Str), t ∈ splitOnComma s → ',' ∉ t)
    ∧ (∀ body : Str, '\n' ∉ body →
        (splitOnComma (body ++ ['\n'])).map stripNL = splitOnComma body)
    ∧ (∀ t : Str, '\n' ∉ t → stripNL t = t)
    ∧ (∀ (tokens : List Str) (i : Nat),
        nmGet (process_headers tokens) i = (tokens.map stripNL).get? i) :=
  ⟨rfl, joinComma_splitOnComma, splitOnComma_no_comma,
    splitOnComma_strip_trailing, stripNL_id, process_headers_get⟩

/-- Witness for C7 at concrete tokens with interior whitespace. -/
theorem C7_tokenization_witness :
    joinComma (splitOnComma ['a', ',', ' ', 'b', ',', ','])
      = ['a', ',', ' ', 'b', ',', ',']
    ∧ (splitOnComma (['a', ',', ' ', 'b'] ++ ['\n'])).map stripNL
      = splitOnComma ['a', ',', ' ', 'b']
    ∧ stripNL [' ', 'a', ' '] = [' ', 'a', ' ']
    ∧ ',' ∉ ([' ', 'b'] : Str) :=
  ⟨C7_tokenization.2.1 _,
   C7_tokenization.2.2.2.1 ['a', ',', ' ', 'b'] (by decide),
   C7_tokenization.2.2.2.2.1 [' ', 'a', ' '] (by decide),
   C7_tokenization.2.2.1 ['a', ',', ' ', 'b'] [' ', 'b'] (by decide)⟩

/-- C8: a duplicate-name header raises no error and every position keeps its
own index; in ListOfMaps the row record holds the cleaned token of the last
position written for a name (later duplicate positions overwrite earlier
ones), and in MapOfLists one tolerated line appends the cleaned tokens of
all duplicate positions, in position order, to the single shared list. -/
theorem C8_duplicate_columns :
    (∀ tokens : List Str, (process_headers tokens).length = tokens.length)
    ∧ (∀ (tokens : List Str) (i : Nat),
        nmGet (process_headers tokens) i = (tokens.map stripNL).get? i)
    ∧ (∀ (hdr : Str) (res : CsvResult) (allow_anomalies : Bool),
        process_input [hdr] res allow_anomalies = .ok res)
    ∧ (∀ (hts tokens : List Str) (lom : List RowMap) (nm v : Str),
        lastWrite nm (hts.map stripNL) tokens = some v →
        ∃ row, process_line_for_list_of_maps tokens (process_headers hts) lom true
            = (lom ++ [row], none)
          ∧ rmGet row nm = some v)
    ∧ (∀ (hts tokens : List Str) (m : MolMap) (nm : Str),
        ∃ m', process_line_for_map_of_lists tokens (process_headers hts) m true
            = (m', none)
          ∧ smGet m' nm
            = extendCol (smGet m nm) (dupVals nm (hts.map stripNL) tokens)) := by
  refine ⟨process_headers_length, process_headers_get, ?_, ?_, ?_⟩
  · intro hdr res allow_anomalies
    rfl
  · intro hts tokens lom nm v hlw
    refine ⟨rowLineGo (hts.map stripNL) tokens [],
      process_lom_true hts tokens lom, ?_⟩
    rw [rowLineGo_get_lastWrite, hlw]
  · intro hts tokens m nm
    exact ⟨molLineGo (hts.map stripNL) tokens m,
      process_mol_true hts tokens m, molLineGo_get_dup _ tokens m nm⟩

/-- Witness for C8 with the duplicate header `a,a` and line `1,2`: both
positions keep their indices; the row record holds "2" (last write wins); the
column list collects ["1","2"] interleaved. -/
theorem C8_duplicate_columns_witness :
    (process_headers [['a'], ['a']]).length = 2
    ∧ nmGet (process_headers [['a'], ['a']]) 0 = some ['a']
    ∧ nmGet (process_headers [['a'], ['a']]) 1 = some ['a']
    ∧ (∃ row, process_line_for_list_of_maps [['1'], ['2']]
          (process_headers [['a'], ['a']]) [] true = ([] ++ [row], none)
        ∧ rmGet row ['a'] = some ['2'])
    ∧ (∃ m', process_line_for_map_of_lists [['1'], ['2']]
          (process_headers [['a'], ['a']]) [] true = (m', none)
        ∧ smGet m' ['a'] = extendCol (smGet ([] : MolMap) ['a'])
            (dupVals ['a'] ([['a'], ['a']].map stripNL) [['1'], ['2']])) := by
  refine ⟨?_, ?_, ?_, ?_, ?_⟩
  · exact C8_duplicate_columns.1 [['a'], ['a']]
  · exact (C8_duplicate_columns.2.1 [['a'], ['a']] 0).trans (by rfl)
  · exact (C8_duplicate_columns.2.1 [['a'], ['a']] 1).trans (by rfl)
  · exact C8_duplicate_columns.2.2.2.1 [['a'], ['a']] [['1'], ['2']] []
      ['a'] ['2'] (by rfl)
  · exact C8_duplicate_columns.2.2.2.2 [['a'], ['a']] [['1'], ['2']] [] ['a']

/-- C9 fails as stated: the externally supplied value "0" is not a valid
positive integer, yet the program accepts it as capacity 0 with no warning
instead of falling back to 1024. -/
theorem C9_counterexample :
    parse_usize "0" = some 0
    ∧ get_initial_vec_capacity (some "0") = (0, false)
    ∧ get_initial_vec_capacity (some "0") ≠ (1024, true) :=
  ⟨by decide, by rfl, by decide⟩

/-- C9 (amended): the capacity hint defaults to 1024 when no value is
supplied; a supplied value that parses as a `usize` (zero included) is used
as-is with no warning; a supplied value that does not parse as a `usize`
falls back to 1024 with a warning on the diagnostic channel. -/
theorem C9_capacity_fallback :
    get_initial_vec_capacity none = (1024, false)
    ∧ (∀ (v : String) (n : Nat), parse_usize v = some n →
        get_initial_vec_capacity (some v) = (n, false))
    ∧ (∀ v : String, parse_usize v = none →
        get_initial_vec_capacity (some v) = (1024, true)) := by
  refine ⟨rfl, ?_, ?_⟩
  · intro v n h
    rw [get_initial_vec_capacity, h]
  · intro v h
    rw [get_initial_vec_capacity, h]

/-- Witness for C9 (amended) at the parseable value "5" and the
unparseable value "12x". -/
theorem C9_capacity_fallback_witness :
    get_initial_vec_capacity (some "5") = (5, false)
    ∧ get_initial_vec_capacity (some "12x") = (1024, true) :=
  ⟨C9_capacity_fallback.2.1 "5" 5 (by decide),
   C9_capacity_fallback.2.2 "12x" (by decide)⟩

/-- C10: whenever `process_line_for_list_of_maps` reports an error (a
strict-mode overflow or underflow), the list-of-maps vector is returned
exactly as it was — the partially built row record for the failing line is
never appended. -/
theorem C10_lom_atomic (tokens : List Str) (headers : NatMap)
    (lom : List RowMap) (allow_anomalies : Bool) (e : String)
    (h : (process_line_for_list_of_maps tokens headers lom allow_anomalies).2
      = some e) :
    (process_line_for_list_of_maps tokens headers lom allow_anomalies).1
      = lom :=
  process_lom_err_preserves tokens headers lom allow_anomalies e h

/-- Witness for C10 at a concrete strict-mode underflow with a non-empty
accumulated vector. -/
theorem C10_lom_atomic_witness :
    (process_line_for_list_of_maps [['1']] (process_headers [['a'], ['b']])
      [[(['x'], ['y'])]] false).1 = [[(['x'], ['y'])]] :=
  C10_lom_atomic [['1']] (process_headers [['a'], ['b']]) [[(['x'], ['y'])]]
    false (underflowMsg 2 1) (by rfl)


/-- C3 fails as stated: with the duplicate header `a,a` and the single data
line `1,2`, the tolerated MapOfLists run gives the list ["1","2"] for column
"a", whose length 2 exceeds the one data line processed. -/
theorem C3_counterexample :
    process_input [['a', ',', 'a'], ['1', ',', '2']] (CsvResult.MapOfLists []) true
      = .ok (.MapOfLists [(['a'], [['1'], ['2']])])
    ∧ smGet [(['a'], [['1'], ['2']])] ['a'] = some [['1'], ['2']]
    ∧ ¬ ([['1'], ['2']] : List Str).length ≤ [['1', ',', '2']].length :=
  ⟨by rfl, by rfl, by decide⟩

/-- C3 (amended): with no assumption, keys of the tolerant MapOfLists result
are exactly header names that received at least one value (lists are created
lazily and never empty); provided the header's column names are pairwise
distinct, every list's length equals the number of data lines that supplied
a token for its column's index, and is at most the number of data lines. -/
theorem C3_mol_invariant :
    ∀ (hdr : Str) (lines : List Str) (M : MolMap),
      process_input (hdr :: lines) (CsvResult.MapOfLists []) true
        = .ok (.MapOfLists M) →
      (∀ nm vs, smGet M nm = some vs →
        nm ∈ (splitOnComma hdr).map stripNL ∧ vs ≠ [])
      ∧ (((splitOnComma hdr).map stripNL).Nodup →
        ∀ nm vs, smGet M nm = some vs →
        ∃ i, ((splitOnComma hdr).map stripNL)[i]? = some nm
          ∧ vs.length
            = lines.countP (fun l => decide (i < (splitOnComma l).length))
          ∧ vs.length ≤ lines.length) := by
  intro hdr lines M hrun
  rw [process_input_cons,
    process_input_go_mol_true (splitOnComma hdr) lines []] at hrun
  have hM : M = molRunGo ((splitOnComma hdr).map stripNL) lines [] :=
    (CsvResult.MapOfLists.inj (Except.ok.inj hrun)).symm
  subst hM
  constructor
  · intro nm vs hget
    refine ⟨?_, ?_⟩
    · by_contra hmem
      rw [molRunGo_get_notmem _ nm hmem lines []] at hget
      simp [smGet] at hget
    · exact molRunGo_vals_nonempty lines _ []
        (fun nm2 vs2 h2 => by simp [smGet] at h2) nm vs hget
  · intro hnd nm vs hget
    have hmem : nm ∈ (splitOnComma hdr).map stripNL := by
      by_contra hmem
      rw [molRunGo_get_notmem _ nm hmem lines []] at hget
      simp [smGet] at hget
    obtain ⟨i, hi⟩ := List.mem_iff_getElem?.1 hmem
    have hchar := molRunGo_get_nodup ((splitOnComma hdr).map stripNL) hnd i nm
      hi lines []
    rw [hget] at hchar
    have hv : vs = colVals i lines := by
      cases hcv : colVals i lines with
      | nil =>
        rw [hcv] at hchar
        simp [extendCol, smGet] at hchar
      | cons x xs =>
        rw [hcv] at hchar
        simp only [extendCol, smGet, Option.getD_none, List.nil_append] at hchar
        exact Option.some.inj hchar
    refine ⟨i, hi, ?_, ?_⟩
    · rw [hv, colVals_length_countP]
    · rw [hv]
      exact colVals_length_le i lines

/-- Witness for C3 (amended) at header `a,b` with the single line `1,2`. -/
theorem C3_mol_invariant_witness :
    (∀ nm vs, smGet [(['a'], [['1']]), (['b'], [['2']])] nm = some vs →
        nm ∈ (splitOnComma ['a', ',', 'b']).map stripNL ∧ vs ≠ [])
    ∧ (((splitOnComma ['a', ',', 'b']).map stripNL).Nodup →
       ∀ nm vs, smGet [(['a'], [['1']]), (['b'], [['2']])] nm = some vs →
       ∃ i, ((splitOnComma ['a', ',', 'b']).map stripNL)[i]? = some nm
         ∧ vs.length = [['1', ',', '2']].countP
             (fun l => decide (i < (splitOnComma l).length))
         ∧ vs.length ≤ [['1', ',', '2']].length) :=
  C3_mol_invariant ['a', ',', 'b'] [['1', ',', '2']]
    [(['a'], [['1']]), (['b'], [['2']])] (by rfl)

/-- C4 fails as stated: the input with duplicate header `a,a` and data line
`1,2` is well-formed (2 tokens, 2 columns), yet the ListOfMaps result is one
record with "a" ↦ "2" while the MapOfLists result holds "a" ↦ ["1","2"]:
the "a"-column of the row-major result is ["2"], and no transposition of a
one-record sequence can reproduce a two-element column list. -/
theorem C4_counterexample :
    (splitOnComma ['1', ',', '2']).length = (splitOnComma ['a', ',', 'a']).length
    ∧ process_input [['a', ',', 'a'], ['1', ',', '2']]
        (CsvResult.ListOfMaps []) true
      = .ok (.ListOfMaps [[(['a'], ['2'])]])
    ∧ process_input [['a', ',', 'a'], ['1', ',', '2']]
        (CsvResult.MapOfLists []) true
      = .ok (.MapOfLists [(['a'], [['1'], ['2']])])
    ∧ [[(['a'], ['2'])]].map (fun r => rmGet r ['a']) = [some ['2']]
    ∧ smGet [(['a'], [['1'], ['2']])] ['a'] = some [['1'], ['2']]
    ∧ ([['1'], ['2']] : List Str).length ≠ [[(['a'], ['2'])]].length :=
  ⟨by decide, by rfl, by rfl, by rfl, by rfl, by decide⟩

/-- C4 (amended): for well-formed inputs whose header column names are
pairwise distinct, the tolerant ListOfMaps and MapOfLists results are
transposes of each other: one record per line, and for every header name and
every row, the column list's entry at the row's position is exactly that
row's value for the name; conversely every column list belongs to a header
name and has one entry per record. -/
theorem C4_transpose_equiv :
    ∀ (hdr : Str) (lines : List Str) (L : List RowMap) (M : MolMap),
      ((splitOnComma hdr).map stripNL).Nodup →
      (∀ l ∈ lines, (splitOnComma l).length = (splitOnComma hdr).length) →
      process_input (hdr :: lines) (CsvResult.ListOfMaps []) true
        = .ok (.ListOfMaps L) →
      process_input (hdr :: lines) (CsvResult.MapOfLists []) true
        = .ok (.MapOfLists M) →
      L.length = lines.length
      ∧ (∀ (i j : Nat) (nm : Str) (row : RowMap),
          ((splitOnComma hdr).map stripNL)[i]? = some nm →
          L[j]? = some row →
          ∃ vs, smGet M nm = some vs
            ∧ vs[j]? = rmGet row nm ∧ (rmGet row nm).isSome)
      ∧ (∀ nm vs, smGet M nm = some vs →
          nm ∈ (splitOnComma hdr).map stripNL ∧ vs.length = L.length) := by
  intro hdr lines L M hnd hwf hrunL hrunM
  rw [process_input_cons,
    process_input_go_lom_true (splitOnComma hdr) lines []] at hrunL
  rw [process_input_cons,
    process_input_go_mol_true (splitOnComma hdr) lines []] at hrunM
  have hL : L = lines.map
      (fun l => rowLineGo ((splitOnComma hdr).map stripNL) (splitOnComma l) []) := by
    have h0 := (CsvResult.ListOfMaps.inj (Except.ok.inj hrunL)).symm
    rw [h0, lomRunGo_eq lines ((splitOnComma hdr).map stripNL) []]
    simp
  have hM : M = molRunGo ((splitOnComma hdr).map stripNL) lines [] :=
    (CsvResult.MapOfLists.inj (Except.ok.inj hrunM)).symm
  subst hM
  have hLlen : L.length = lines.length := by rw [hL, List.length_map]
  refine ⟨hLlen, ?_, ?_⟩
  · intro i j nm row hi hj
    have hilen : i < (splitOnComma hdr).length := by
      have hs := (getElem?_isSome_iff _ _).1 (show (((splitOnComma hdr).map stripNL)[i]?).isSome by rw [hi]; rfl)
      rw [List.length_map] at hs
      exact hs
    rw [hL, List.getElem?_map] at hj
    cases hlj : lines[j]? with
    | none => rw [hlj] at hj; simp at hj
    | some l =>
      rw [hlj] at hj
      have hrow : row
          = rowLineGo ((splitOnComma hdr).map stripNL) (splitOnComma l) [] := by
        have := Option.some.inj hj
        exact this.symm
      have hlmem : l ∈ lines := List.mem_iff_getElem?.2 ⟨j, hlj⟩
      have htok : i < (splitOnComma l).length := by
        rw [hwf l hlmem]
        exact hilen
      cases h2 : (splitOnComma l)[i]? with
      | none =>
        rw [List.getElem?_eq_getElem htok] at h2
        simp at h2
      | some t =>
        have hrg : rmGet row nm = some (stripNL t) := by
          rw [hrow, rowLineGo_get_nodup _ hnd i nm hi (splitOnComma l) [], h2]
        have hchar := molRunGo_get_nodup ((splitOnComma hdr).map stripNL) hnd
          i nm hi lines []
        have hcv : colVals i lines = lines.map
            (fun l2 => stripNL (((splitOnComma l2)[i]?).getD [])) :=
          colVals_wellformed i lines (fun x hx => by rw [hwf x hx]; exact hilen)
        refine ⟨colVals i lines, ?_, ?_, ?_⟩
        · rw [hchar]
          cases hc2 : colVals i lines with
          | nil =>
            rw [hcv] at hc2
            have hlempty : lines = [] := by
              cases lines with
              | nil => rfl
              | cons a as => simp at hc2
            rw [hlempty] at hlj
            simp at hlj
          | cons x xs =>
            simp [extendCol, smGet]
        · rw [hcv, List.getElem?_map, hlj, hrg]
          simp [h2]
        · rw [hrg]
          rfl
  · intro nm vs hget
    have hmem : nm ∈ (splitOnComma hdr).map stripNL := by
      by_contra hmem
      rw [molRunGo_get_notmem _ nm hmem lines []] at hget
      simp [smGet] at hget
    obtain ⟨i, hi⟩ := List.mem_iff_getElem?.1 hmem
    have hilen : i < (splitOnComma hdr).length := by
      have hs := (getElem?_isSome_iff _ _).1 (show (((splitOnComma hdr).map stripNL)[i]?).isSome by rw [hi]; rfl)
      rw [List.length_map] at hs
      exact hs
    have hchar := molRunGo_get_nodup ((splitOnComma hdr).map stripNL) hnd i nm
      hi lines []
    rw [hget] at hchar
    have hcv : colVals i lines = lines.map
        (fun l2 => stripNL (((splitOnComma l2)[i]?).getD [])) :=
      colVals_wellformed i lines (fun x hx => by rw [hwf x hx]; exact hilen)
    have hv : vs = colVals i lines := by
      cases hc2 : colVals i lines with
      | nil =>
        rw [hc2] at hchar
        simp [extendCol, smGet] at hchar
      | cons x xs =>
        rw [hc2] at hchar
        simp only [extendCol, smGet, Option.getD_none, List.nil_append] at hchar
        exact Option.some.inj hchar
    refine ⟨hmem, ?_⟩
    rw [hv, hcv, List.length_map, hLlen]

/-- Witness for C4 (amended) at header `a,b` with lines `1,2` and `3,4`. -/
theorem C4_transpose_equiv_witness :
    ([[(['a'], ['1']), (['b'], ['2'])],
      [(['a'], ['3']), (['b'], ['4'])]] : List RowMap).length
      = [['1', ',', '2'], ['3', ',', '4']].length
    ∧ (∀ (i j : Nat) (nm : Str) (row : RowMap),
        ((splitOnComma ['a', ',', 'b']).map stripNL)[i]? = some nm →
        ([[(['a'], ['1']), (['b'], ['2'])],
          [(['a'], ['3']), (['b'], ['4'])]] : List RowMap)[j]? = some row →
        ∃ vs, smGet [(['a'], [['1'], ['3']]), (['b'], [['2'], ['4']])] nm
            = some vs
          ∧ vs[j]? = rmGet row nm ∧ (rmGet row nm).isSome)
    ∧ (∀ nm vs,
        smGet [(['a'], [['1'], ['3']]), (['b'], [['2'], ['4']])] nm = some vs →
        nm ∈ (splitOnComma ['a', ',', 'b']).map stripNL
        ∧ vs.length = ([[(['a'], ['1']), (['b'], ['2'])],
            [(['a'], ['3']), (['b'], ['4'])]] : List RowMap).length) :=
  C4_transpose_equiv ['a', ',', 'b'] [['1', ',', '2'], ['3', ',', '4']]
    [[(['a'], ['1']), (['b'], ['2'])], [(['a'], ['3']), (['b'], ['4'])]]
    [(['a'], [['1'], ['3']]), (['b'], [['2'], ['4']])]
    (by decide) (by decide) (by rfl) (by rfl)

end Csv2Json
